import Mathlib

/-!
# KFS allocation and replication engine: a shallow embedding

This file embeds the core of KFS (Kyle's File Storage) in Lean 4:
the SQLite-backed availability ledger (`disks` table), the dedup index
(`files` table), the allocation routine `AllocStorage` (also named
`db_alloc_storage` in one revision of the source), and the replication
fan-out/fan-in routine `archive_file`.

The embedding follows the Go source:
* the `disks` table holds rows `(root TEXT PRIMARY KEY, available INTEGER)`;
* the `files` table holds rows `(hash, hash_algo, storage_root)`;
* `db_has_hash` counts `files` rows with the given hash;
* `db_reduce_space` runs `update disks set available = available - ? where root = ?`;
* `db_add_file_records` inserts one `files` row per storage dir;
* `AllocStorage` takes the global mutex, checks dedup, selects disks with
  `available > 2*size`, requires at least `KFS_REDUNDANCY` of them, shuffles,
  takes the first `KFS_REDUNDANCY` as storage dirs with the first also acting
  as staging dir, debits `size` from the staging dir and from every storage
  dir, and inserts the file records.

The random shuffle is modelled as an explicit parameter
`shuffle : List String → List String`; theorems that depend on it assume it
permutes its input, which is what `rand.Shuffle` does.
-/

namespace KFS

/-- A row of the `disks` table: `root TEXT NOT NULL PRIMARY KEY, available INTEGER`. -/
structure Disk where
  root : String
  available : Int
  deriving Repr, DecidableEq

/-- A row of the `files` table (the columns the core writes:
`hash, hash_algo, storage_root`). -/
structure FileRecord where
  hash : String
  hash_algo : String
  storage_root : String
  deriving Repr, DecidableEq

/-- The persisted store: the `disks` table and the `files` table, each in
rowid (insertion) order. -/
structure DBState where
  disks : List Disk
  files : List FileRecord
  deriving Repr, DecidableEq

/-- `KFS_REDUNDANCY = 2` from the source. -/
def KFS_REDUNDANCY : Nat := 2

/-- `db_has_hash`: `select count(*) from files where hash = ?`, true iff the
count is positive. -/
def db_has_hash (st : DBState) (hash : String) : Bool :=
  decide (0 < st.files.countP (fun r => r.hash == hash))

/-- The effect of `update disks set available = available - ? where root = ?`
on one row. -/
def reduceRow (root : String) (size : Int) (d : Disk) : Disk :=
  if d.root = root then { d with available := d.available - size } else d

/-- `db_reduce_space root size`: debit `size` from every `disks` row whose
`root` matches (at most one row, since `root` is the primary key). -/
def db_reduce_space (st : DBState) (root : String) (size : Int) : DBState :=
  { st with disks := st.disks.map (reduceRow root size) }

/-- One `insert into files(hash, hash_algo, storage_root) values(?, 'blake2b', ?)`. -/
def db_insert_file (st : DBState) (hash : String) (storage_dir : String) : DBState :=
  { st with files := st.files ++ [⟨hash, "blake2b", storage_dir⟩] }

/-- `db_add_file_records`: the source's loop of single-row inserts, one per
storage dir. -/
def db_add_file_records (st : DBState) (hash : String)
    (storage_dirs : List String) : DBState :=
  storage_dirs.foldl (fun s dir => db_insert_file s hash dir) st

/-- The candidate query `select root from disks where available > ?` with
parameter `2*size`, in table order. -/
def candidateRoots (st : DBState) (size : Int) : List String :=
  (st.disks.filter (fun d => decide (2 * size < d.available))).map (fun d => d.root)

/-- The errors `AllocStorage` can return: the disk-candidate query failing,
or fewer than `KFS_REDUNDANCY` qualifying disks
(`"not enough disks to meet redundancy requirements"`). -/
inductive AllocError where
  | queryFailed
  | notEnoughDisks
  deriving Repr, DecidableEq

/-- The quadruple `(skip, staging_path, storage_paths, err)` returned by
`AllocStorage`. -/
structure AllocResult where
  skip : Bool
  staging_path : String
  storage_paths : List String
  err : Option AllocError
  deriving Repr, DecidableEq

/-- `AllocStorage` (= `db_alloc_storage`) on a reliable store: the whole body
runs under the global mutex, so it is a function from the store state to a
result and the new store state.  `shuffle` stands for `rand.Shuffle`. -/
def AllocStorage (shuffle : List String → List String) (st : DBState)
    (hash : String) (size : Int) : AllocResult × DBState :=
  if db_has_hash st hash then
    (⟨true, "", [""], none⟩, st)
  else
    let disks := candidateRoots st size
    if disks.length < KFS_REDUNDANCY then
      (⟨false, "", [""], some .notEnoughDisks⟩, st)
    else
      let disks := shuffle disks
      let staging_dir := disks.headD ""
      let storage_dirs := disks.take KFS_REDUNDANCY
      let st1 := db_reduce_space st staging_dir size
      let st2 := storage_dirs.foldl (fun s dir => db_reduce_space s dir size) st1
      let st3 := db_add_file_records st2 hash storage_dirs
      (⟨false, staging_dir ++ "/.kfs/staging/",
        storage_dirs.map (fun dir => dir ++ "/.kfs/storage/"), none⟩, st3)

/-- The sum of `available` over the whole `disks` table. -/
def totalAvail (st : DBState) : Int :=
  (st.disks.map (fun d => d.available)).sum

/-! ## Basic lemmas about the table operations -/

theorem reduceRow_root (r : String) (s : Int) (d : Disk) :
    (reduceRow r s d).root = d.root := by
  unfold reduceRow; split <;> rfl

theorem roots_db_reduce_space (st : DBState) (r : String) (s : Int) :
    (db_reduce_space st r s).disks.map (fun d => d.root)
      = st.disks.map (fun d => d.root) := by
  simp [db_reduce_space, List.map_map, Function.comp, reduceRow_root]

theorem files_db_reduce_space (st : DBState) (r : String) (s : Int) :
    (db_reduce_space st r s).files = st.files := rfl

theorem disks_db_add_file_records (st : DBState) (h : String) (dirs : List String) :
    (db_add_file_records st h dirs).disks = st.disks := by
  induction dirs generalizing st with
  | nil => rfl
  | cons d ds ih => simpa [db_add_file_records, db_insert_file] using ih _

theorem files_db_add_file_records (st : DBState) (h : String) (dirs : List String) :
    (db_add_file_records st h dirs).files
      = st.files ++ dirs.map (fun dir => ⟨h, "blake2b", dir⟩) := by
  induction dirs generalizing st with
  | nil => simp [db_add_file_records]
  | cons d ds ih =>
      simp [db_add_file_records, db_insert_file] at ih ⊢
      simp [ih]

theorem mem_candidateRoots {st : DBState} {s : Int} {r : String} :
    r ∈ candidateRoots st s ↔ ∃ d ∈ st.disks, 2 * s < d.available ∧ d.root = r := by
  simp [candidateRoots, and_assoc]

theorem candidateRoots_subset (st : DBState) (s : Int) :
    candidateRoots st s ⊆ st.disks.map (fun d => d.root) :=
  ((List.filter_sublist st.disks).map _).subset

theorem candidateRoots_nodup {st : DBState} (s : Int)
    (hnd : (st.disks.map (fun d => d.root)).Nodup) :
    (candidateRoots st s).Nodup :=
  hnd.sublist ((List.filter_sublist st.disks).map _)

theorem totalAvail_db_reduce_space (st : DBState) (r : String) (s : Int) :
    totalAvail (db_reduce_space st r s)
      = totalAvail st - s * ((st.disks.map (fun d => d.root)).count r) := by
  unfold totalAvail db_reduce_space
  induction st.disks with
  | nil => simp
  | cons d tl ih =>
      simp only [List.map_cons, List.sum_cons, List.count_cons, ih]
      unfold reduceRow
      by_cases hr : d.root = r
      · simp [hr]; ring
      · have : ¬ (r = d.root) := fun h => hr h.symm
        simp [hr, this]; ring

theorem totalAvail_db_add_file_records (st : DBState) (h : String)
    (dirs : List String) :
    totalAvail (db_add_file_records st h dirs) = totalAvail st := by
  unfold totalAvail
  rw [disks_db_add_file_records]

/-! ## Branch shapes of `AllocStorage` -/

theorem alloc_skip_eq (shuffle : List String → List String) (st : DBState)
    (hash : String) (size : Int) (hh : db_has_hash st hash = true) :
    AllocStorage shuffle st hash size = (⟨true, "", [""], none⟩, st) := by
  simp [AllocStorage, hh]

theorem alloc_insufficient_eq (shuffle : List String → List String) (st : DBState)
    (hash : String) (size : Int) (hh : db_has_hash st hash = false)
    (hlen : (candidateRoots st size).length < KFS_REDUNDANCY) :
    AllocStorage shuffle st hash size
      = (⟨false, "", [""], some .notEnoughDisks⟩, st) := by
  simp [AllocStorage, hh, hlen]

theorem alloc_success_eq (shuffle : List String → List String) (st : DBState)
    (hash : String) (size : Int) (hh : db_has_hash st hash = false)
    (hlen : ¬ (candidateRoots st size).length < KFS_REDUNDANCY) :
    AllocStorage shuffle st hash size =
      (⟨false, (shuffle (candidateRoots st size)).headD "" ++ "/.kfs/staging/",
         ((shuffle (candidateRoots st size)).take KFS_REDUNDANCY).map
           (fun dir => dir ++ "/.kfs/storage/"), none⟩,
       db_add_file_records
         (((shuffle (candidateRoots st size)).take KFS_REDUNDANCY).foldl
           (fun s dir => db_reduce_space s dir size)
           (db_reduce_space st ((shuffle (candidateRoots st size)).headD "") size))
         hash ((shuffle (candidateRoots st size)).take KFS_REDUNDANCY)) := by
  simp [AllocStorage, hh, hlen]

theorem alloc_success_cases (shuffle : List String → List String) (st : DBState)
    (hash : String) (size : Int)
    (hskip : (AllocStorage shuffle st hash size).1.skip = false)
    (herr : (AllocStorage shuffle st hash size).1.err = none) :
    db_has_hash st hash = false
      ∧ ¬ (candidateRoots st size).length < KFS_REDUNDANCY := by
  by_cases hh : db_has_hash st hash = true
  · rw [alloc_skip_eq shuffle st hash size hh] at hskip
    simp at hskip
  · have hh' : db_has_hash st hash = false := by simpa using hh
    by_cases hlen : (candidateRoots st size).length < KFS_REDUNDANCY
    · rw [alloc_insufficient_eq shuffle st hash size hh' hlen] at herr
      simp at herr
    · exact ⟨hh', hlen⟩

theorem shuffled_shape {shuffle : List String → List String} {st : DBState}
    {size : Int} (hperm : ∀ l, (shuffle l).Perm l)
    (hlen : ¬ (candidateRoots st size).length < KFS_REDUNDANCY) :
    ∃ a b t, shuffle (candidateRoots st size) = a :: b :: t := by
  have hl : 2 ≤ (shuffle (candidateRoots st size)).length := by
    rw [(hperm _).length_eq]
    simp only [KFS_REDUNDANCY] at hlen
    omega
  rcases hx : shuffle (candidateRoots st size) with _ | ⟨a, _ | ⟨b, t⟩⟩
  · rw [hx] at hl; simp at hl
  · rw [hx] at hl; simp at hl
  · exact ⟨a, b, t, rfl⟩

/-! ## C1: dedup short-circuit -/

/-- C1: for every hash with at least one `files` row, `AllocStorage` returns
`skip = true` with a nil error and mutates neither the `disks` table nor the
`files` table. -/
theorem alreadyStored_no_mutation (shuffle : List String → List String)
    (st : DBState) (hash : String) (size : Int)
    (hstored : 0 < st.files.countP (fun r => r.hash == hash)) :
    (AllocStorage shuffle st hash size).1.skip = true
      ∧ (AllocStorage shuffle st hash size).1.err = none
      ∧ (AllocStorage shuffle st hash size).2.disks = st.disks
      ∧ (AllocStorage shuffle st hash size).2.files = st.files := by
  have hh : db_has_hash st hash = true := by
    simpa [db_has_hash] using hstored
  rw [alloc_skip_eq shuffle st hash size hh]
  exact ⟨rfl, rfl, rfl, rfl⟩

/-- Witness for C1 at a concrete store that already holds hash `"deadbeef"`. -/
theorem alreadyStored_no_mutation_witness :
    (0 < (DBState.files ⟨[⟨"/mnt/disk1", 1000⟩, ⟨"/mnt/disk2", 1000⟩],
            [⟨"deadbeef", "blake2b", "/mnt/disk1"⟩]⟩).countP
          (fun r => r.hash == "deadbeef"))
      ∧ (AllocStorage id ⟨[⟨"/mnt/disk1", 1000⟩, ⟨"/mnt/disk2", 1000⟩],
            [⟨"deadbeef", "blake2b", "/mnt/disk1"⟩]⟩ "deadbeef" 400).1.skip = true
      ∧ (AllocStorage id ⟨[⟨"/mnt/disk1", 1000⟩, ⟨"/mnt/disk2", 1000⟩],
            [⟨"deadbeef", "blake2b", "/mnt/disk1"⟩]⟩ "deadbeef" 400).1.err = none :=
  ⟨by decide,
   (alreadyStored_no_mutation id _ "deadbeef" 400 (by decide)).1,
   (alreadyStored_no_mutation id ⟨[⟨"/mnt/disk1", 1000⟩, ⟨"/mnt/disk2", 1000⟩],
      [⟨"deadbeef", "blake2b", "/mnt/disk1"⟩]⟩ "deadbeef" 400 (by decide)).2.1⟩

/-! ## C4: insufficient redundancy -/

/-- C4: when the hash is new and fewer than `KFS_REDUNDANCY` disks pass the
free-space filter `available > 2*size`, `AllocStorage` returns the
not-enough-disks error and leaves both tables unchanged. -/
theorem insufficientRedundancy_no_mutation (shuffle : List String → List String)
    (st : DBState) (hash : String) (size : Int)
    (hh : db_has_hash st hash = false)
    (hlen : (candidateRoots st size).length < KFS_REDUNDANCY) :
    (AllocStorage shuffle st hash size).1.err = some .notEnoughDisks
      ∧ (AllocStorage shuffle st hash size).1.skip = false
      ∧ (AllocStorage shuffle st hash size).2.disks = st.disks
      ∧ (AllocStorage shuffle st hash size).2.files = st.files := by
  rw [alloc_insufficient_eq shuffle st hash size hh hlen]
  exact ⟨rfl, rfl, rfl, rfl⟩

/-- Witness for C4: one qualifying disk is fewer than `KFS_REDUNDANCY = 2`. -/
theorem insufficientRedundancy_no_mutation_witness :
    db_has_hash ⟨[⟨"/mnt/disk1", 1000⟩, ⟨"/mnt/disk2", 700⟩], []⟩ "cafe" = false
      ∧ (candidateRoots ⟨[⟨"/mnt/disk1", 1000⟩, ⟨"/mnt/disk2", 700⟩], []⟩ 400).length
          < KFS_REDUNDANCY
      ∧ (AllocStorage id ⟨[⟨"/mnt/disk1", 1000⟩, ⟨"/mnt/disk2", 700⟩], []⟩
          "cafe" 400).1.err = some .notEnoughDisks :=
  ⟨by decide, by decide,
   (insufficientRedundancy_no_mutation id ⟨[⟨"/mnt/disk1", 1000⟩, ⟨"/mnt/disk2", 700⟩], []⟩
      "cafe" 400 (by decide) (by decide)).1⟩

/-! ## C2: total debit of a successful allocation -/

/-- A store with two disks of 1000 free bytes and no files, used as a concrete
input below. -/
def twoDisks : DBState :=
  ⟨[⟨"/mnt/disk1", 1000⟩, ⟨"/mnt/disk2", 1000⟩], []⟩

/-- C2 counterexample: `AllocStorage` over two 1000-byte disks with
`size = 400` succeeds, debits exactly 2 distinct disk rows, yet removes 1200
bytes in total — not `size × 2 = 800`.  The staging disk is the first replica
disk and is debited twice. -/
theorem alloc_debit_distinct_cex :
    (AllocStorage id twoDisks "h" 400).1.err = none
      ∧ (AllocStorage id twoDisks "h" 400).1.skip = false
      ∧ (twoDisks.disks.zip (AllocStorage id twoDisks "h" 400).2.disks).countP
          (fun p => p.1.available != p.2.available) = 2
      ∧ totalAvail twoDisks - totalAvail (AllocStorage id twoDisks "h" 400).2 = 1200
      ∧ ¬ ((1200 : Int) = 400 * 2) := by
  refine ⟨rfl, rfl, by decide, by decide, by decide⟩

/-- C2 (amended): for every successful `AllocStorage` the total bytes debited
equal `size × (KFS_REDUNDANCY + 1)`: `size` for the staging debit plus `size`
for each of the `KFS_REDUNDANCY` replica debits.  Since the staging disk is
also the first replica disk, this is `size × (distinct disks touched + 1)`. -/
theorem alloc_total_debit (shuffle : List String → List String) (st : DBState)
    (hash : String) (size : Int)
    (hperm : ∀ l, (shuffle l).Perm l)
    (hnd : (st.disks.map (fun d => d.root)).Nodup)
    (hskip : (AllocStorage shuffle st hash size).1.skip = false)
    (herr : (AllocStorage shuffle st hash size).1.err = none) :
    totalAvail st - totalAvail (AllocStorage shuffle st hash size).2
      = size * (KFS_REDUNDANCY + 1) := by
  obtain ⟨hh, hlen⟩ := alloc_success_cases shuffle st hash size hskip herr
  obtain ⟨a, b, t, hshape⟩ := shuffled_shape hperm hlen
  have hma : a ∈ candidateRoots st size := by
    have : a ∈ shuffle (candidateRoots st size) := by
      rw [hshape]; exact List.mem_cons_self a (b :: t)
    exact (hperm _).mem_iff.mp this
  have hmb : b ∈ candidateRoots st size := by
    have : b ∈ shuffle (candidateRoots st size) := by rw [hshape]; simp
    exact (hperm _).mem_iff.mp this
  have cnta := List.count_eq_one_of_mem hnd (candidateRoots_subset st size hma)
  have cntb := List.count_eq_one_of_mem hnd (candidateRoots_subset st size hmb)
  rw [alloc_success_eq shuffle st hash size hh hlen]
  rw [hshape]
  have htake : List.take KFS_REDUNDANCY (a :: b :: t) = [a, b] := rfl
  have hhead : (a :: b :: t).headD "" = a := rfl
  rw [htake, hhead]
  simp only [List.foldl_cons, List.foldl_nil]
  rw [totalAvail_db_add_file_records, totalAvail_db_reduce_space,
    roots_db_reduce_space, roots_db_reduce_space, totalAvail_db_reduce_space,
    roots_db_reduce_space, totalAvail_db_reduce_space, cnta, cntb]
  simp only [KFS_REDUNDANCY]
  ring

/-- Witness for the amended C2 at a concrete store: 1200 bytes debited for
`size = 400`. -/
theorem alloc_total_debit_witness :
    (AllocStorage id twoDisks "h" 400).1.skip = false
      ∧ (AllocStorage id twoDisks "h" 400).1.err = none
      ∧ totalAvail twoDisks - totalAvail (AllocStorage id twoDisks "h" 400).2
          = 400 * (KFS_REDUNDANCY + 1) :=
  ⟨rfl, rfl,
   alloc_total_debit id twoDisks "h" 400 (fun l => List.Perm.refl l)
     (by decide) rfl rfl⟩

/-! ## C3: the ledger never goes negative -/

/-- C3: if `0 ≤ size` and every disk's `available` is non-negative before an
`AllocStorage` call, then every disk's `available` is non-negative after it,
for every outcome.  The hypotheses `hperm` and `hnd` record that
`rand.Shuffle` permutes the candidate list and that `root` is the primary key
of the `disks` table. -/
theorem alloc_preserves_nonneg (shuffle : List String → List String)
    (st : DBState) (hash : String) (size : Int)
    (hperm : ∀ l, (shuffle l).Perm l)
    (hnd : (st.disks.map (fun d => d.root)).Nodup)
    (hsize : 0 ≤ size)
    (hpos : ∀ d ∈ st.disks, 0 ≤ d.available) :
    ∀ d ∈ (AllocStorage shuffle st hash size).2.disks, 0 ≤ d.available := by
  by_cases hh : db_has_hash st hash = true
  · rw [alloc_skip_eq shuffle st hash size hh]; exact hpos
  · have hh' : db_has_hash st hash = false := by simpa using hh
    by_cases hlen : (candidateRoots st size).length < KFS_REDUNDANCY
    · rw [alloc_insufficient_eq shuffle st hash size hh' hlen]; exact hpos
    · obtain ⟨a, b, t, hshape⟩ := shuffled_shape hperm hlen
      have hab : a ≠ b := by
        have hndl : (a :: b :: t).Nodup := by
          rw [← hshape]
          exact ((hperm _).nodup_iff).mpr (candidateRoots_nodup size hnd)
        have := (List.nodup_cons.mp hndl).1
        intro hEq; exact this (hEq ▸ List.mem_cons_self b t)
      have hma : a ∈ candidateRoots st size := by
        have : a ∈ shuffle (candidateRoots st size) := by
          rw [hshape]; exact List.mem_cons_self a (b :: t)
        exact (hperm _).mem_iff.mp this
      have hmb : b ∈ candidateRoots st size := by
        have : b ∈ shuffle (candidateRoots st size) := by rw [hshape]; simp
        exact (hperm _).mem_iff.mp this
      obtain ⟨da, hda_mem, hda_avail, hda_root⟩ := mem_candidateRoots.mp hma
      obtain ⟨dbk, hdb_mem, hdb_avail, hdb_root⟩ := mem_candidateRoots.mp hmb
      rw [alloc_success_eq shuffle st hash size hh' hlen, hshape]
      have htake : List.take KFS_REDUNDANCY (a :: b :: t) = [a, b] := rfl
      have hhead : (a :: b :: t).headD "" = a := rfl
      rw [htake, hhead]
      simp only [List.foldl_cons, List.foldl_nil]
      intro d hd
      rw [disks_db_add_file_records] at hd
      simp only [db_reduce_space, List.map_map, List.mem_map] at hd
      obtain ⟨d0, hd0_mem, hd0_eq⟩ := hd
      subst hd0_eq
      simp only [Function.comp]
      by_cases hra : d0.root = a
      · have : d0 = da :=
          List.inj_on_of_nodup_map hnd hd0_mem hda_mem (by rw [hra, hda_root])
        subst this
        simp only [reduceRow, hra, if_pos, hab.symm]
        rw [if_neg hab]
        dsimp only
        omega
      · by_cases hrb : d0.root = b
        · have : d0 = dbk :=
            List.inj_on_of_nodup_map hnd hd0_mem hdb_mem (by rw [hrb, hdb_root])
          subst this
          simp only [reduceRow, if_neg hra]
          rw [if_pos hrb]
          dsimp only
          omega
        · simp only [reduceRow, if_neg hra, if_neg hrb]
          exact hpos d0 hd0_mem

/-- Witness for C3 at a concrete store. -/
theorem alloc_preserves_nonneg_witness :
    (0 : Int) ≤ 400
      ∧ ∀ d ∈ (AllocStorage id twoDisks "h" 400).2.disks, 0 ≤ d.available :=
  ⟨by decide,
   alloc_preserves_nonneg id twoDisks "h" 400 (fun l => List.Perm.refl l)
     (by decide) (by decide) (by decide)⟩

/-! ## C6: replica-set selection -/

/-- C6: every successful `AllocStorage` reports as replica set exactly the
first `KFS_REDUNDANCY` elements of the shuffled qualifying-disk list — a set
of `KFS_REDUNDANCY` pairwise-distinct roots — and the staging disk is the
head of that same shuffled list, hence a member of the qualifying pool. -/
theorem alloc_replica_selection (shuffle : List String → List String)
    (st : DBState) (hash : String) (size : Int)
    (hperm : ∀ l, (shuffle l).Perm l)
    (hnd : (st.disks.map (fun d => d.root)).Nodup)
    (hskip : (AllocStorage shuffle st hash size).1.skip = false)
    (herr : (AllocStorage shuffle st hash size).1.err = none) :
    (AllocStorage shuffle st hash size).1.storage_paths
        = ((shuffle (candidateRoots st size)).take KFS_REDUNDANCY).map
            (fun dir => dir ++ "/.kfs/storage/")
      ∧ ((shuffle (candidateRoots st size)).take KFS_REDUNDANCY).length
          = KFS_REDUNDANCY
      ∧ ((shuffle (candidateRoots st size)).take KFS_REDUNDANCY).Nodup
      ∧ (∀ r ∈ (shuffle (candidateRoots st size)).take KFS_REDUNDANCY,
          r ∈ candidateRoots st size)
      ∧ (AllocStorage shuffle st hash size).1.staging_path
          = (shuffle (candidateRoots st size)).headD "" ++ "/.kfs/staging/"
      ∧ (shuffle (candidateRoots st size)).headD "" ∈ candidateRoots st size := by
  obtain ⟨hh, hlen⟩ := alloc_success_cases shuffle st hash size hskip herr
  obtain ⟨a, b, t, hshape⟩ := shuffled_shape hperm hlen
  have hndl : (shuffle (candidateRoots st size)).Nodup :=
    ((hperm _).nodup_iff).mpr (candidateRoots_nodup size hnd)
  have hlen2 : 2 ≤ (shuffle (candidateRoots st size)).length := by
    rw [hshape]; simp
  refine ⟨?_, ?_, ?_, ?_, ?_, ?_⟩
  · rw [alloc_success_eq shuffle st hash size hh hlen]
  · rw [List.length_take]
    simp only [KFS_REDUNDANCY]
    omega
  · exact hndl.sublist (List.take_sublist _ _)
  · intro r hr
    exact (hperm _).mem_iff.mp (List.take_subset _ _ hr)
  · rw [alloc_success_eq shuffle st hash size hh hlen]
  · have : (shuffle (candidateRoots st size)).headD "" = a := by rw [hshape]; rfl
    rw [this]
    have : a ∈ shuffle (candidateRoots st size) := by
      rw [hshape]; exact List.mem_cons_self a (b :: t)
    exact (hperm _).mem_iff.mp this

/-- Witness for C6 at a concrete store. -/
theorem alloc_replica_selection_witness :
    (AllocStorage id twoDisks "hh" 300).1.storage_paths
        = ((id (candidateRoots twoDisks 300)).take KFS_REDUNDANCY).map
            (fun dir => dir ++ "/.kfs/storage/")
      ∧ ((id (candidateRoots twoDisks 300)).take KFS_REDUNDANCY).length
          = KFS_REDUNDANCY
      ∧ ((id (candidateRoots twoDisks 300)).take KFS_REDUNDANCY).Nodup :=
  have h := alloc_replica_selection id twoDisks "hh" 300
    (fun l => List.Perm.refl l) (by decide) rfl rfl
  ⟨h.1, h.2.1, h.2.2.1⟩

/-! ## C8: two serialized allocations of the same new hash

The global mutex is held for the whole body of `AllocStorage`, so two
concurrent calls execute in one of the two serial orders; both orders are
instances of composing the calls sequentially. -/

/-- C8 counterexample: over an empty disk table, two serialized `AllocStorage`
calls for the same brand-new hash both fail with the redundancy error —
neither commits a `FileRecord` set and neither observes `AlreadyStored`
(`skip` stays `false` for both), so "exactly one commits and the other
observes `AlreadyStored`" does not hold as stated. -/
theorem concurrent_alloc_cex :
    db_has_hash ⟨[], []⟩ "h" = false
      ∧ (AllocStorage id ⟨[], []⟩ "h" 400).1.skip = false
      ∧ (AllocStorage id ⟨[], []⟩ "h" 400).1.err = some .notEnoughDisks
      ∧ (AllocStorage id ⟨[], []⟩ "h" 400).2.files = []
      ∧ (AllocStorage id (AllocStorage id ⟨[], []⟩ "h" 400).2 "h" 400).1.skip
          = false
      ∧ (AllocStorage id (AllocStorage id ⟨[], []⟩ "h" 400).2 "h" 400).2.files
          = [] := by
  decide

/-- C8 (amended): of two serialized `AllocStorage` calls for the same hash,
if the first returns a successful placement then the second returns
`AlreadyStored` and performs no mutation — hence both calls can never
commit. -/
theorem concurrent_alloc_dedup (sh1 sh2 : List String → List String)
    (st : DBState) (hash : String) (s1 s2 : Int)
    (hperm1 : ∀ l, (sh1 l).Perm l)
    (hskip : (AllocStorage sh1 st hash s1).1.skip = false)
    (herr : (AllocStorage sh1 st hash s1).1.err = none) :
    (AllocStorage sh2 (AllocStorage sh1 st hash s1).2 hash s2).1.skip = true
      ∧ (AllocStorage sh2 (AllocStorage sh1 st hash s1).2 hash s2).1.err = none
      ∧ (AllocStorage sh2 (AllocStorage sh1 st hash s1).2 hash s2).2
          = (AllocStorage sh1 st hash s1).2 := by
  obtain ⟨hh, hlen⟩ := alloc_success_cases sh1 st hash s1 hskip herr
  obtain ⟨a, b, t, hshape⟩ := shuffled_shape hperm1 hlen
  have hstored : db_has_hash (AllocStorage sh1 st hash s1).2 hash = true := by
    rw [alloc_success_eq sh1 st hash s1 hh hlen]
    simp only [db_has_hash, files_db_add_file_records, List.countP_append,
      decide_eq_true_eq]
    rw [hshape]
    have : List.take KFS_REDUNDANCY (a :: b :: t) = [a, b] := rfl
    rw [this]
    simp
  rw [alloc_skip_eq sh2 _ hash s2 hstored]
  exact ⟨rfl, rfl, rfl⟩

/-- Witness for the amended C8: over two 1000-byte disks the first call
commits and the second observes `AlreadyStored`. -/
theorem concurrent_alloc_dedup_witness :
    (AllocStorage id twoDisks "h2" 100).1.skip = false
      ∧ (AllocStorage id (AllocStorage id twoDisks "h2" 100).2 "h2" 100).1.skip
          = true
      ∧ (AllocStorage id (AllocStorage id twoDisks "h2" 100).2 "h2" 100).1.err
          = none :=
  have h := concurrent_alloc_dedup id id twoDisks "h2" 100 100
    (fun l => List.Perm.refl l) rfl rfl
  ⟨rfl, h.1, h.2.1⟩

/-! ## A failure-aware model of `AllocStorage`

Every `db.Exec`/`db.Query` call in the source can fail.  The model indexes
the store operations of one `AllocStorage` call in program order (0: dedup
count, 1: candidate select, 2: staging debit, 3..: replica debits, then the
row inserts) and takes an oracle saying which operation fails.  A failing
query is handled (`db_has_hash` logs and returns `false`; the candidate
query returns an error), while a failing `db.Exec` in the commit phase makes
the source `panic` — the statements already executed stay committed, since
each was its own implicit transaction. -/

/-- Outcome of a sequence of indexed store writes: the next op index and the
state, or the state at the moment a write failed (the Go code panics). -/
inductive WStep where
  | ok (i : Nat) (st : DBState)
  | panicked (st : DBState)
  deriving Repr, DecidableEq

/-- The debit sequence `db_reduce_space` per root, under the failure oracle. -/
def runReducesF (oracle : Nat → Bool) (size : Int) :
    Nat → DBState → List String → WStep
  | i, st, [] => .ok i st
  | i, st, r :: rs =>
    if oracle i then .panicked st
    else runReducesF oracle size (i + 1) (db_reduce_space st r size) rs

/-- The insert loop of `db_add_file_records`, under the failure oracle. -/
def runInsertsF (oracle : Nat → Bool) (hash : String) :
    Nat → DBState → List String → WStep
  | i, st, [] => .ok i st
  | i, st, d :: ds =>
    if oracle i then .panicked st
    else runInsertsF oracle hash (i + 1) (db_insert_file st hash d) ds

/-- Outcome of `AllocStorage` under the failure oracle: a returned quadruple,
or a panic with the partially mutated store. -/
inductive ExecOut where
  | ok (res : AllocResult) (st : DBState)
  | panicked (st : DBState)
  deriving Repr, DecidableEq

/-- The commit phase of `AllocStorage` under the failure oracle: the staging
debit, the per-replica debits, then the row inserts (operation indices start
at 2, after the two queries). -/
def commitPhaseF (oracle : Nat → Bool) (hash : String) (size : Int)
    (st : DBState) (stg : String) (dirs : List String) : ExecOut :=
  match runReducesF oracle size 2 st (stg :: dirs) with
  | .panicked st1 => .panicked st1
  | .ok i st1 =>
    match runInsertsF oracle hash i st1 dirs with
    | .panicked st2 => .panicked st2
    | .ok _ st3 =>
      .ok ⟨false, stg ++ "/.kfs/staging/",
        dirs.map (fun dir => dir ++ "/.kfs/storage/"), none⟩ st3

/-- `AllocStorage` with every store operation subject to the failure oracle. -/
def AllocStorageF (oracle : Nat → Bool) (shuffle : List String → List String)
    (st : DBState) (hash : String) (size : Int) : ExecOut :=
  let has := if oracle 0 then false else db_has_hash st hash
  if has then .ok ⟨true, "", [""], none⟩ st
  else if oracle 1 then .ok ⟨false, "", [""], some .queryFailed⟩ st
  else
    let disks := candidateRoots st size
    if disks.length < KFS_REDUNDANCY then
      .ok ⟨false, "", [""], some .notEnoughDisks⟩ st
    else
      let l := shuffle disks
      commitPhaseF oracle hash size st (l.headD "") (l.take KFS_REDUNDANCY)

/-- One store write of the commit phase. -/
inductive DBWrite where
  | reduce (root : String)
  | insertRec (dir : String)
  deriving Repr, DecidableEq

/-- Apply one commit-phase write. -/
def applyWrite (hash : String) (size : Int) (st : DBState) : DBWrite → DBState
  | .reduce r => db_reduce_space st r size
  | .insertRec d => db_insert_file st hash d

/-- Apply a sequence of commit-phase writes in order. -/
def applyWrites (hash : String) (size : Int) (st : DBState)
    (ws : List DBWrite) : DBState :=
  ws.foldl (applyWrite hash size) st

/-- The commit-phase write plan for staging dir `stg` and storage dirs
`dirs`: a debit for `stg`, a debit for each storage dir, then one row insert
per storage dir. -/
def commitPlan (stg : String) (dirs : List String) : List DBWrite :=
  (stg :: dirs).map .reduce ++ dirs.map .insertRec

/-- The full commit-phase write plan of one allocation. -/
def writePlan (shuffle : List String → List String) (st : DBState)
    (size : Int) : List DBWrite :=
  let l := shuffle (candidateRoots st size)
  commitPlan (l.headD "") (l.take KFS_REDUNDANCY)

theorem applyWrites_append (hash : String) (size : Int) (st : DBState)
    (l1 l2 : List DBWrite) :
    applyWrites hash size st (l1 ++ l2)
      = applyWrites hash size (applyWrites hash size st l1) l2 := by
  simp [applyWrites, List.foldl_append]

theorem runReducesF_spec (oracle : Nat → Bool) (size : Int) (hash : String) :
    ∀ (rs : List String) (i : Nat) (st : DBState),
      (∃ i', runReducesF oracle size i st rs
          = .ok i' (applyWrites hash size st (rs.map .reduce)))
      ∨ (∃ k < rs.length, runReducesF oracle size i st rs
          = .panicked (applyWrites hash size st ((rs.map .reduce).take k))) := by
  intro rs
  induction rs with
  | nil => exact fun i st => Or.inl ⟨i, rfl⟩
  | cons r rs ih =>
      intro i st
      by_cases h : oracle i
      · exact Or.inr ⟨0, by simp, by simp [runReducesF, h, applyWrites]⟩
      · rcases ih (i + 1) (db_reduce_space st r size) with ⟨i', hok⟩ | ⟨k, hk, hp⟩
        · refine Or.inl ⟨i', ?_⟩
          simp only [runReducesF, h, if_false, Bool.false_eq_true]
          exact hok
        · refine Or.inr ⟨k + 1, by simpa using hk, ?_⟩
          simp only [runReducesF, h, if_false, Bool.false_eq_true]
          exact hp

theorem runInsertsF_spec (oracle : Nat → Bool) (hash : String) (size : Int) :
    ∀ (ds : List String) (i : Nat) (st : DBState),
      (∃ i', runInsertsF oracle hash i st ds
          = .ok i' (applyWrites hash size st (ds.map .insertRec)))
      ∨ (∃ k < ds.length, runInsertsF oracle hash i st ds
          = .panicked (applyWrites hash size st ((ds.map .insertRec).take k))) := by
  intro ds
  induction ds with
  | nil => exact fun i st => Or.inl ⟨i, rfl⟩
  | cons d ds ih =>
      intro i st
      by_cases h : oracle i
      · exact Or.inr ⟨0, by simp, by simp [runInsertsF, h, applyWrites]⟩
      · rcases ih (i + 1) (db_insert_file st hash d) with ⟨i', hok⟩ | ⟨k, hk, hp⟩
        · refine Or.inl ⟨i', ?_⟩
          simp only [runInsertsF, h, if_false, Bool.false_eq_true]
          exact hok
        · refine Or.inr ⟨k + 1, by simpa using hk, ?_⟩
          simp only [runInsertsF, h, if_false, Bool.false_eq_true]
          exact hp

theorem commitPhaseF_spec (oracle : Nat → Bool) (hash : String) (size : Int)
    (st : DBState) (stg : String) (dirs : List String) :
    commitPhaseF oracle hash size st stg dirs
        = .ok ⟨false, stg ++ "/.kfs/staging/",
            dirs.map (fun dir => dir ++ "/.kfs/storage/"), none⟩
            (applyWrites hash size st (commitPlan stg dirs))
      ∨ ∃ k < (commitPlan stg dirs).length,
          commitPhaseF oracle hash size st stg dirs
            = .panicked (applyWrites hash size st ((commitPlan stg dirs).take k)) := by
  unfold commitPhaseF
  rcases runReducesF_spec oracle size hash (stg :: dirs) 2 st with ⟨i', hok⟩ | ⟨k, hk, hp⟩
  · rw [hok]
    dsimp only
    rcases runInsertsF_spec oracle hash size dirs i'
        (applyWrites hash size st ((stg :: dirs).map .reduce))
      with ⟨j, hok2⟩ | ⟨k2, hk2, hp2⟩
    · rw [hok2]
      dsimp only
      left
      rw [commitPlan, applyWrites_append]
    · rw [hp2]
      dsimp only
      right
      refine ⟨((stg :: dirs).map DBWrite.reduce).length + k2, ?_, ?_⟩
      · simp only [commitPlan, List.length_append, List.length_map,
          List.length_cons]
        omega
      · rw [commitPlan, List.take_append, applyWrites_append]
  · rw [hp]
    dsimp only
    right
    have hle : k ≤ ((stg :: dirs).map DBWrite.reduce).length := by
      simp only [List.length_map, List.length_cons]
      simp only [List.length_cons] at hk
      omega
    refine ⟨k, ?_, ?_⟩
    · simp only [commitPlan, List.length_append, List.length_map,
        List.length_cons]
      simp only [List.length_cons] at hk
      omega
    · rw [commitPlan, List.take_append_of_le_length hle]

theorem runReducesF_noFail (size : Int) :
    ∀ (rs : List String) (i : Nat) (st : DBState), ∃ i',
      runReducesF (fun _ => false) size i st rs
        = .ok i' (rs.foldl (fun s r => db_reduce_space s r size) st) := by
  intro rs
  induction rs with
  | nil => exact fun i st => ⟨i, rfl⟩
  | cons r rs ih =>
      intro i st
      obtain ⟨i', h⟩ := ih (i + 1) (db_reduce_space st r size)
      exact ⟨i', by simpa [runReducesF] using h⟩

theorem runInsertsF_noFail (hash : String) :
    ∀ (ds : List String) (i : Nat) (st : DBState), ∃ i',
      runInsertsF (fun _ => false) hash i st ds
        = .ok i' (db_add_file_records st hash ds) := by
  intro ds
  induction ds with
  | nil => exact fun i st => ⟨i, rfl⟩
  | cons d ds ih =>
      intro i st
      obtain ⟨i', h⟩ := ih (i + 1) (db_insert_file st hash d)
      exact ⟨i', by simpa [runInsertsF, db_add_file_records] using h⟩

/-- When no store operation fails, the failure-aware model returns exactly
what the plain model computes: the two embeddings agree. -/
theorem AllocStorageF_noFail (shuffle : List String → List String)
    (st : DBState) (hash : String) (size : Int) :
    AllocStorageF (fun _ => false) shuffle st hash size
      = .ok (AllocStorage shuffle st hash size).1
          (AllocStorage shuffle st hash size).2 := by
  by_cases hh : db_has_hash st hash = true
  · rw [alloc_skip_eq shuffle st hash size hh]
    unfold AllocStorageF
    simp [hh]
  · have hh' : db_has_hash st hash = false := by simpa using hh
    by_cases hlen : (candidateRoots st size).length < KFS_REDUNDANCY
    · rw [alloc_insufficient_eq shuffle st hash size hh' hlen]
      unfold AllocStorageF
      simp [hh', hlen]
    · rw [alloc_success_eq shuffle st hash size hh' hlen]
      unfold AllocStorageF
      simp only [hh', hlen, Bool.false_eq_true, if_false, ite_false]
      unfold commitPhaseF
      obtain ⟨i', hr⟩ := runReducesF_noFail size
        ((shuffle (candidateRoots st size)).headD ""
          :: (shuffle (candidateRoots st size)).take KFS_REDUNDANCY) 2 st
      rw [hr]
      dsimp only
      obtain ⟨j, hins⟩ := runInsertsF_noFail hash
        ((shuffle (candidateRoots st size)).take KFS_REDUNDANCY) i' _
      rw [hins]
      rfl

/-! ## C5: atomicity of the commit -/

/-- C5 (amended): the commit is a sequence of individual statements, not one
transaction.  Whatever the failure oracle does: a call that returns a
successful placement has applied the whole write plan, and a call that
panics on a failing write leaves exactly a proper prefix of the write plan
applied — the writes already executed survive, with no rollback. -/
theorem alloc_writes_survive (oracle : Nat → Bool)
    (shuffle : List String → List String) (st : DBState) (hash : String)
    (size : Int) :
    (∀ res st', AllocStorageF oracle shuffle st hash size = .ok res st' →
        res.skip = false → res.err = none →
        st' = applyWrites hash size st (writePlan shuffle st size))
      ∧ (∀ st', AllocStorageF oracle shuffle st hash size = .panicked st' →
        ∃ k < (writePlan shuffle st size).length,
          st' = applyWrites hash size st ((writePlan shuffle st size).take k)) := by
  have hplan : writePlan shuffle st size
      = commitPlan ((shuffle (candidateRoots st size)).headD "")
          ((shuffle (candidateRoots st size)).take KFS_REDUNDANCY) := rfl
  by_cases h0 : (if oracle 0 then false else db_has_hash st hash) = true
  · have hA : AllocStorageF oracle shuffle st hash size
        = .ok ⟨true, "", [""], none⟩ st := by
      unfold AllocStorageF
      rw [if_pos h0]
    refine ⟨?_, ?_⟩
    · intro res st' h hskip herr
      rw [hA] at h
      injection h with h1 h2
      subst h1
      simp at hskip
    · intro st' h
      rw [hA] at h
      simp at h
  · by_cases h1 : oracle 1 = true
    · have hA : AllocStorageF oracle shuffle st hash size
          = .ok ⟨false, "", [""], some .queryFailed⟩ st := by
        unfold AllocStorageF
        rw [if_neg h0, if_pos h1]
      refine ⟨?_, ?_⟩
      · intro res st' h hskip herr
        rw [hA] at h
        injection h with hr hs
        subst hr
        simp at herr
      · intro st' h
        rw [hA] at h
        simp at h
    · by_cases h2 : (candidateRoots st size).length < KFS_REDUNDANCY
      · have hA : AllocStorageF oracle shuffle st hash size
            = .ok ⟨false, "", [""], some .notEnoughDisks⟩ st := by
          unfold AllocStorageF
          rw [if_neg h0, if_neg h1, if_pos h2]
        refine ⟨?_, ?_⟩
        · intro res st' h hskip herr
          rw [hA] at h
          injection h with hr hs
          subst hr
          simp at herr
        · intro st' h
          rw [hA] at h
          simp at h
      · have hA : AllocStorageF oracle shuffle st hash size
            = commitPhaseF oracle hash size st
                ((shuffle (candidateRoots st size)).headD "")
                ((shuffle (candidateRoots st size)).take KFS_REDUNDANCY) := by
          unfold AllocStorageF
          rw [if_neg h0, if_neg h1, if_neg h2]
        rcases commitPhaseF_spec oracle hash size st
            ((shuffle (candidateRoots st size)).headD "")
            ((shuffle (candidateRoots st size)).take KFS_REDUNDANCY)
          with hok | ⟨k, hk, hp⟩
        · refine ⟨?_, ?_⟩
          · intro res st' h hskip herr
            rw [hA, hok] at h
            injection h with hr hs
            rw [hplan, hs]
          · intro st' h
            rw [hA, hok] at h
            simp at h
        · refine ⟨?_, ?_⟩
          · intro res st' h hskip herr
            rw [hA, hp] at h
            simp at h
          · intro st' h
            rw [hA, hp] at h
            injection h with hs
            exact ⟨k, by rw [hplan]; exact hk, by rw [hplan, hs]⟩

/-- Witness for the amended C5: with no failing write, the store after a
successful allocation is the full write plan applied to the store before. -/
theorem alloc_writes_survive_witness :
    (⟨[⟨"/mnt/disk1", 200⟩, ⟨"/mnt/disk2", 600⟩],
       [⟨"h", "blake2b", "/mnt/disk1"⟩, ⟨"h", "blake2b", "/mnt/disk2"⟩]⟩ : DBState)
      = applyWrites "h" 400 twoDisks (writePlan id twoDisks 400) :=
  (alloc_writes_survive (fun _ => false) id twoDisks "h" 400).1
    ⟨false, "/mnt/disk1/.kfs/staging/",
      ["/mnt/disk1/.kfs/storage/", "/mnt/disk2/.kfs/storage/"], none⟩
    _ rfl rfl rfl

/-- C5 counterexample: if the write of the second `files` row fails
(operation index 6), the call panics leaving all three debits and one of the
two rows committed — neither "all debits and all rows survive" nor "none
survive" holds, so the commit is not atomic. -/
theorem alloc_not_atomic_cex :
    db_has_hash twoDisks "h" = false
      ∧ AllocStorageF (fun i => decide (i = 6)) id twoDisks "h" 400
          = .panicked ⟨[⟨"/mnt/disk1", 200⟩, ⟨"/mnt/disk2", 600⟩],
              [⟨"h", "blake2b", "/mnt/disk1"⟩]⟩
      ∧ (([⟨"h", "blake2b", "/mnt/disk1"⟩] : List FileRecord).countP
            (fun r => r.hash == "h") = 1)
      ∧ (1 : Nat) ≠ KFS_REDUNDANCY ∧ (1 : Nat) ≠ 0
      ∧ totalAvail ⟨[⟨"/mnt/disk1", 200⟩, ⟨"/mnt/disk2", 600⟩],
            [⟨"h", "blake2b", "/mnt/disk1"⟩]⟩ ≠ totalAvail twoDisks := by
  decide

/-! ## `archive_file`: fan-out, fan-in, cleanup

`archive_file` launches one `store_file` goroutine per storage path, each
guarded by `wg.Add(1)` before the `go` and `defer wg.Done()` inside, then
`wg.Wait()`s and finally `os.Remove`s the staging file.  The model is an
interleaved small-step transition system over the WaitGroup counter and the
set of finished copy tasks.  A copy task finishes whether or not its `cp`
succeeded — `store_file` discards `copy_file`'s error — so each finish
carries an arbitrary outcome Bool that no guard ever reads. -/

/-- Position of the `archive_file` main routine: still in the launch loop /
before `wg.Wait()`, or past the `os.Remove`. -/
inductive MainPC where
  | launching
  | cleaned
  deriving Repr, DecidableEq

/-- One run of `archive_file` with `n` copy tasks. -/
structure RepState where
  launched : Nat
  finished : List (Nat × Bool)
  counter : Nat
  pc : MainPC
  staging : Bool
  deriving Repr, DecidableEq

/-- Initial state of `archive_file`: nothing launched, WaitGroup at zero,
staging file present. -/
def repInit : RepState := ⟨0, [], 0, .launching, true⟩

/-- Interleaved semantics of `archive_file` with `n` copy tasks:
`launch` is one loop iteration (`wg.Add(1)` then `go store_file`),
`finish i ok` is copy task `i` completing with outcome `ok` and running its
`defer wg.Done()`, and `remove` is the main routine returning from
`wg.Wait()` — possible only after all `n` launches with the counter at
zero — and deleting the staging file. -/
inductive RepStep (n : Nat) : RepState → RepState → Prop where
  | launch (s : RepState) (hpc : s.pc = .launching) (hlt : s.launched < n) :
      RepStep n s { s with launched := s.launched + 1, counter := s.counter + 1 }
  | finish (s : RepState) (i : Nat) (ok : Bool) (hi : i < s.launched)
      (hnew : i ∉ s.finished.map Prod.fst) :
      RepStep n s { s with finished := (i, ok) :: s.finished,
                           counter := s.counter - 1 }
  | remove (s : RepState) (hpc : s.pc = .launching) (hall : s.launched = n)
      (hctr : s.counter = 0) :
      RepStep n s { s with pc := .cleaned, staging := false }

/-- States reachable from `repInit` by interleaving. -/
def RepReach (n : Nat) : RepState → Prop :=
  Relation.ReflTransGen (RepStep n) repInit

/-- A duplicate-free list of naturals all below `n` has at most `n`
elements. -/
theorem nodup_bounded_length_le {l : List Nat} {n : Nat} (hnd : l.Nodup)
    (hlt : ∀ x ∈ l, x < n) : l.length ≤ n := by
  have hsub : l.toFinset ⊆ Finset.range n := fun x hx =>
    Finset.mem_range.mpr (hlt x (List.mem_toFinset.mp hx))
  have hcard := Finset.card_le_card hsub
  rwa [List.toFinset_card_of_nodup hnd, Finset.card_range] at hcard

/-- A duplicate-free list of `n` naturals all below `n` contains every
natural below `n`. -/
theorem nodup_bounded_full {l : List Nat} {n : Nat} (hnd : l.Nodup)
    (hlt : ∀ x ∈ l, x < n) (hlen : n ≤ l.length) : ∀ i < n, i ∈ l := by
  intro i hi
  have hsub : l.toFinset ⊆ Finset.range n := fun x hx =>
    Finset.mem_range.mpr (hlt x (List.mem_toFinset.mp hx))
  have hcard : (Finset.range n).card ≤ l.toFinset.card := by
    rw [List.toFinset_card_of_nodup hnd, Finset.card_range]
    exact hlen
  have heq := Finset.eq_of_subset_of_card_le hsub hcard
  have : i ∈ l.toFinset := by
    rw [heq]
    exact Finset.mem_range.mpr hi
  exact List.mem_toFinset.mp this

/-- The inductive invariant of the `archive_file` system: the WaitGroup
counter counts launched-but-unfinished tasks, finished tasks are distinct
and were launched, and the staging file disappears only past `wg.Wait()`. -/
structure RepInv (n : Nat) (s : RepState) : Prop where
  launched_le : s.launched ≤ n
  fin_lt : ∀ p ∈ s.finished, p.1 < s.launched
  fin_nodup : (s.finished.map Prod.fst).Nodup
  fin_le : s.finished.length ≤ s.launched
  counter_eq : s.counter = s.launched - s.finished.length
  cleaned_done : s.pc = .cleaned → s.launched = n ∧ s.finished.length = n
  staging_pc : s.staging = false → s.pc = .cleaned

theorem repInv_init (n : Nat) : RepInv n repInit := by
  refine ⟨?_, ?_, ?_, ?_, ?_, ?_, ?_⟩ <;> simp [repInit]

theorem repInv_step {n : Nat} {s s' : RepState} (h : RepStep n s s')
    (inv : RepInv n s) : RepInv n s' := by
  cases h with
  | launch hpc hlt =>
      refine ⟨hlt, ?_, inv.fin_nodup, ?_, ?_, ?_, ?_⟩
      · intro p hp
        exact Nat.lt_succ_of_lt (inv.fin_lt p hp)
      · exact Nat.le_succ_of_le inv.fin_le
      · have h1 := inv.counter_eq
        have h2 := inv.fin_le
        dsimp only
        omega
      · intro hcl
        have hcl' : s.pc = MainPC.cleaned := hcl
        rw [hpc] at hcl'
        cases hcl'
      · intro hfalse
        have hfalse' : s.staging = false := hfalse
        have := inv.staging_pc hfalse'
        rw [hpc] at this
        cases this
  | finish i ok hi hnew =>
      have hnd' : ((i, ok) :: s.finished).map Prod.fst |>.Nodup := by
        simp only [List.map_cons]
        exact List.nodup_cons.mpr ⟨hnew, inv.fin_nodup⟩
      have hlt' : ∀ p ∈ (i, ok) :: s.finished, p.1 < s.launched := by
        intro p hp
        rcases List.mem_cons.mp hp with hp | hp
        · rw [hp]; exact hi
        · exact inv.fin_lt p hp
      have hlen' : ((i, ok) :: s.finished).length ≤ s.launched := by
        have : (((i, ok) :: s.finished).map Prod.fst).length ≤ s.launched := by
          refine nodup_bounded_length_le hnd' ?_
          intro x hx
          obtain ⟨p, hp, hpx⟩ := List.mem_map.mp hx
          rw [← hpx]
          exact hlt' p hp
        simpa using this
      refine ⟨inv.launched_le, hlt', hnd', hlen', ?_, ?_, ?_⟩
      · have h1 := inv.counter_eq
        dsimp only
        simp only [List.length_cons]
        omega
      · intro hcl
        exfalso
        have hcl' : s.pc = MainPC.cleaned := hcl
        obtain ⟨hlau, hfin⟩ := inv.cleaned_done hcl'
        simp only [List.length_cons] at hlen'
        omega
      · intro hfalse
        exfalso
        have hfalse' : s.staging = false := hfalse
        have hcl := inv.staging_pc hfalse'
        obtain ⟨hlau, hfin⟩ := inv.cleaned_done hcl
        simp only [List.length_cons] at hlen'
        omega
  | remove hpc hall hctr =>
      have h1 := inv.counter_eq
      have h2 := inv.fin_le
      have hfin : s.finished.length = n := by omega
      refine ⟨inv.launched_le, inv.fin_lt, inv.fin_nodup, inv.fin_le,
        inv.counter_eq, ?_, ?_⟩
      · intro _
        exact ⟨hall, hfin⟩
      · intro _
        rfl

theorem repInv_reach {n : Nat} {s : RepState} (h : RepReach n s) :
    RepInv n s := by
  induction h with
  | refl => exact repInv_init n
  | tail hab hbc ih => exact repInv_step hbc ih

/-- The finished-task list after completing tasks `0, …, k-1` in order, task
`i` with outcome `results i`. -/
def finList (results : Nat → Bool) : Nat → List (Nat × Bool)
  | 0 => []
  | k + 1 => (k, results k) :: finList results k

theorem finList_length (results : Nat → Bool) (k : Nat) :
    (finList results k).length = k := by
  induction k with
  | zero => rfl
  | succ k ih => simp [finList, ih]

theorem finList_fst_lt (results : Nat → Bool) (k : Nat) :
    ∀ x ∈ (finList results k).map Prod.fst, x < k := by
  induction k with
  | zero => simp [finList]
  | succ k ih =>
      intro x hx
      simp only [finList, List.map_cons, List.mem_cons] at hx
      rcases hx with hx | hx
      · omega
      · exact Nat.lt_succ_of_lt (ih x hx)

theorem finList_mem (results : Nat → Bool) (k : Nat) :
    ∀ i < k, (i, results i) ∈ finList results k := by
  induction k with
  | zero => intro i hi; cases hi
  | succ k ih =>
      intro i hi
      by_cases hik : i = k
      · subst hik
        exact List.mem_cons_self _ _
      · have : i < k := by omega
        exact List.mem_cons_of_mem _ (ih i this)

theorem reach_launched (n : Nat) : ∀ k, k ≤ n →
    RepReach n ⟨k, [], k, .launching, true⟩ := by
  intro k
  induction k with
  | zero => intro _; exact Relation.ReflTransGen.refl
  | succ k ih =>
      intro hk
      have hstep : RepStep n ⟨k, [], k, .launching, true⟩
          ⟨k + 1, [], k + 1, .launching, true⟩ :=
        RepStep.launch _ rfl (by dsimp only; omega)
      exact Relation.ReflTransGen.tail (ih (by omega)) hstep

theorem reach_finished (n : Nat) (results : Nat → Bool) : ∀ k, k ≤ n →
    RepReach n ⟨n, finList results k, n - k, .launching, true⟩ := by
  intro k
  induction k with
  | zero => intro _; exact reach_launched n n (Nat.le_refl n)
  | succ k ih =>
      intro hk
      have hstep : RepStep n ⟨n, finList results k, n - k, .launching, true⟩
          ⟨n, (k, results k) :: finList results k, n - k - 1, .launching, true⟩ :=
        RepStep.finish _ k (results k) (by dsimp only; omega)
          (by
            intro hmem
            exact absurd (finList_fst_lt results k k hmem) (by omega))
      have := Relation.ReflTransGen.tail (ih (by omega)) hstep
      have heq : n - k - 1 = n - (k + 1) := by omega
      rw [heq] at this
      exact this

/-! ## C7: the replication join barrier and unconditional cleanup -/

/-- C7: in every interleaving of `archive_file`, if the staging file has been
removed then every one of the `n` copy tasks has finished (the `wg.Wait()`
barrier is never passed ahead of an in-flight copy); and for every
assignment of copy outcomes — including failures — there is a complete run
in which each task `i` reports outcome `results i` and the staging file is
removed at the end: cleanup is unconditional on copy success. -/
theorem archive_cleanup_barrier (n : Nat) :
    (∀ s, RepReach n s → s.staging = false →
        ∀ i < n, i ∈ s.finished.map Prod.fst)
      ∧ ∀ results : Nat → Bool, ∃ s2, RepReach n s2
          ∧ s2.pc = .cleaned ∧ s2.staging = false
          ∧ ∀ i < n, (i, results i) ∈ s2.finished := by
  constructor
  · intro s hreach hfalse i hi
    have inv := repInv_reach hreach
    have hcl := inv.staging_pc hfalse
    obtain ⟨hlau, hfin⟩ := inv.cleaned_done hcl
    have hlt : ∀ x ∈ s.finished.map Prod.fst, x < n := by
      intro x hx
      obtain ⟨p, hp, hpx⟩ := List.mem_map.mp hx
      rw [← hpx]
      rw [← hlau]
      exact inv.fin_lt p hp
    have hlen : n ≤ (s.finished.map Prod.fst).length := by
      simp [hfin]
    exact nodup_bounded_full inv.fin_nodup hlt hlen i hi
  · intro results
    have hpre := reach_finished n results n (Nat.le_refl n)
    have hzero : n - n = 0 := Nat.sub_self n
    rw [hzero] at hpre
    have hstep : RepStep n ⟨n, finList results n, 0, .launching, true⟩
        ⟨n, finList results n, 0, .cleaned, false⟩ :=
      RepStep.remove _ rfl rfl rfl
    refine ⟨⟨n, finList results n, 0, .cleaned, false⟩,
      Relation.ReflTransGen.tail hpre hstep, rfl, rfl, ?_⟩
    intro i hi
    exact finList_mem results n i hi

/-- Witness for C7: a concrete complete run with one copy task (whose copy
failed) reaches the cleaned state, and the safety half applied to a concrete
reachable cleaned state shows its task finished. -/
theorem archive_cleanup_barrier_witness :
    (∀ i < 1, i ∈ ((⟨1, [(0, false)], 0, .cleaned, false⟩ : RepState)).finished.map Prod.fst)
      ∧ ∃ s2, RepReach 2 s2 ∧ s2.pc = .cleaned ∧ s2.staging = false
          ∧ ∀ i < 2, (i, false) ∈ s2.finished := by
  constructor
  · have h1 : RepStep 1 repInit ⟨1, [], 1, .launching, true⟩ :=
      RepStep.launch _ rfl (by decide)
    have h2 : RepStep 1 ⟨1, [], 1, .launching, true⟩
        ⟨1, [(0, false)], 0, .launching, true⟩ :=
      RepStep.finish _ 0 false (by decide) (by decide)
    have h3 : RepStep 1 ⟨1, [(0, false)], 0, .launching, true⟩
        ⟨1, [(0, false)], 0, .cleaned, false⟩ :=
      RepStep.remove _ rfl rfl rfl
    have hreach : RepReach 1 ⟨1, [(0, false)], 0, .cleaned, false⟩ :=
      Relation.ReflTransGen.tail
        (Relation.ReflTransGen.tail
          (Relation.ReflTransGen.tail Relation.ReflTransGen.refl h1) h2) h3
    exact (archive_cleanup_barrier 1).1 _ hreach rfl
  · exact (archive_cleanup_barrier 2).2 (fun _ => false)

end KFS
